import Mathlib

/-!
Shallow embedding of the cocoindex-mcp server (templates/mcp_server.py and
templates/main.py): the location formatter, the path-tree builder and
renderer, the query-time post-processing of `search_code`, the
`get_project_structure` tool, and models of the external vector store and
of the incremental indexing pipeline as the spec describes them.

Python floats are modelled as exact rationals; Python `round(x, 4)` is
modelled as round-half-to-even at four decimal places.  Python strings are
Lean `String`s (both are sequences of unicode codepoints, so `s[:200]`
becomes `String.take s 200`).
-/

namespace CocoMCP

/-- The character set of the Python call `loc.strip("()[] ")` in
`_format_location` (templates/mcp_server.py line 48). -/
def bracketChars : List Char := ['(', ')', '[', ']', ' ']

/-- Python `s.strip(chars)`: remove characters belonging to `cs` from both
ends of `s`. -/
def stripChars (cs : List Char) (s : String) : String :=
  String.mk (((s.toList.dropWhile (cs.contains ·)).reverse.dropWhile (cs.contains ·)).reverse)

/-- Python default `str.strip()` on a token: trim whitespace from both ends
(ASCII whitespace; the tokens at hand are digit strings). -/
def pyStrip (s : String) : String :=
  String.mk (((s.toList.dropWhile Char.isWhitespace).reverse.dropWhile Char.isWhitespace).reverse)

/-- Python `loc.startswith("L")` for a one-character pattern: test on the
first character. -/
def startsWithChar (s : String) (c : Char) : Bool :=
  match s.toList with
  | [] => false
  | d :: _ => d == c

/-- Python `str.split(sep)` for a one-character separator, on the
character list: splitting the empty string gives one empty token, each
separator occurrence starts a new token. -/
def splitCharList (c : Char) : List Char → List (List Char)
  | [] => [[]]
  | d :: rest =>
    match splitCharList c rest with
    | [] => [[d]]
    | x :: xs => if d == c then [] :: x :: xs else (d :: x) :: xs

/-- Python `s.split(",")` (templates/mcp_server.py line 48). -/
def splitOnComma (s : String) : List String :=
  (splitCharList ',' s.toList).map String.mk

/-- Python slicing `s[:n]`: the first `n` codepoints, the whole string
when it is shorter. -/
def pyTake (s : String) (n : ℕ) : String := String.mk (s.toList.take n)

/-- `_format_location` (templates/mcp_server.py lines 38-53).  The stored
`location` column is either SQL NULL (`none`) or a string, and Python
`str` on a string is the identity, so the input is `Option String`.  The
`try/except (ValueError, AttributeError)` in the source is dead code for
string input — `strip`, `split` and `strip` are total on `str` — so the
embedding needs no error path.  `len(parts) == 2` is the match on a
two-element list. -/
def _format_location : Option String → String
  | none => ""
  | some location =>
    if startsWithChar location 'L' || startsWithChar location 'l' then location
    else
      match splitOnComma (stripChars bracketChars location) with
      | [a, b] => "offset " ++ pyStrip a ++ "-" ++ pyStrip b
      | _ => location

/-- Claim-side helper for the formatter: the "two comma-separated tokens
after stripping surrounding bracket characters and whitespace" parse of the
spec (§4.5), yielding the rendered `offset start-end` string when it
succeeds. -/
def offsetPairRender (s : String) : Option String :=
  match splitOnComma (stripChars bracketChars s) with
  | [a, b] => some ("offset " ++ pyStrip a ++ "-" ++ pyStrip b)
  | _ => none

/-- Claim-side formatter, written from the spec's §4.5 clauses: `none` maps
to the empty string; a string beginning with `L` or `l` is returned
unchanged; a string parsing as exactly two comma-separated tokens is
rendered as `offset start-end`; every other shape passes through. -/
def formatLocationSpec : Option String → String
  | none => ""
  | some s =>
    if startsWithChar s 'L' || startsWithChar s 'l' then s
    else (offsetPairRender s).getD s

/-- Round-half-to-even to the nearest integer: the rounding Python `round`
uses.  `⌊q⌋` when the fractional part is below one half, `⌊q⌋ + 1` when it
is above, and the even neighbour on an exact tie. -/
def roundHalfEven (q : ℚ) : ℤ :=
  let f : ℤ := ⌊q⌋
  let r : ℚ := q - (f : ℚ)
  if r < 1/2 then f
  else if 1/2 < r then f + 1
  else if 2 ∣ f then f else f + 1

/-- Python `round(x, 4)` on exact rationals (templates/mcp_server.py
line 82). -/
def round4 (q : ℚ) : ℚ := ((roundHalfEven (q * 10000) : ℤ) : ℚ) / 10000

/-- One row of the chunk table, as stored: the columns of the
`code_embeddings` target (templates/main.py lines 56-61).  `embedding` is
optional so that a malformed row (missing embedding) is representable. -/
structure Row (E : Type) where
  filename : String
  location : Option String
  code : String
  embedding : Option E

/-- One row as fetched by the SELECT of `search_code`
(templates/mcp_server.py lines 71-79): the three stored columns plus the
computed `embedding <=> query` cosine distance. -/
structure Fetched where
  filename : String
  location : Option String
  code : String
  distance : ℚ
deriving DecidableEq

/-- Stable insertion by ascending distance. -/
def insertByDist (x : Fetched) : List Fetched → List Fetched
  | [] => [x]
  | y :: rest => if x.distance ≤ y.distance then x :: y :: rest else y :: insertByDist x rest

/-- The `ORDER BY distance` of the SELECT, as a stable insertion sort. -/
def sortByDist : List Fetched → List Fetched
  | [] => []
  | x :: rest => insertByDist x (sortByDist rest)

/-- Modelled from the spec: the store's `nearest` lookup (§4.2).  The SQL
`SELECT filename, location, code, embedding <=> %s::vector AS distance FROM
t ORDER BY distance LIMIT %s` issued by `search_code` is executed by the
external Postgres/pgvector store, which is not part of src/; per §4.2 it
must exclude rows with a missing embedding, order the rest by ascending
cosine distance to the query, and return at most `limit` of them (none when
`limit` is nonpositive, per the §4.3 edge case).  `dist` gives the cosine
distance of a stored embedding to the query vector. -/
def nearest {E : Type} (dist : E → ℚ) (store : List (Row E)) (limit : ℤ) : List Fetched :=
  (sortByDist (store.filterMap fun r =>
      r.embedding.map fun e => Fetched.mk r.filename r.location r.code (dist e))).take
    limit.toNat

/-- One element of the list returned by `search_code`
(templates/mcp_server.py lines 85-92).  `code` is `some` exactly when the
optional full-code field was added to the dict. -/
structure Entry where
  filename : String
  location : String
  snippet : String
  score : ℚ
  code : Option String
deriving DecidableEq

/-- `search_code` (templates/mcp_server.py lines 61-94).  The query
embedding and the store's scan are abstracted into `dist` and the store
contents (see `nearest`); the Python result loop — score, threshold test,
dict construction, append — is the left fold. -/
def search_code {E : Type} (dist : E → ℚ) (store : List (Row E))
    (top_k : ℤ) (include_code : Bool) (min_score : ℚ) : List Entry :=
  (nearest dist store top_k).foldl
    (fun results row =>
      let score := round4 (1 - row.distance)
      if score < min_score then results
      else
        results ++ [{ filename := row.filename
                      location := _format_location row.location
                      snippet := pyTake row.code 200
                      score := score
                      code := if include_code then some row.code else none }]) []

/-- The record emitted for one surviving row, as the spec's §4.3 step 5
describes it: formatted location, 200-codepoint snippet, score, and the
full code exactly when `include_code` is set. -/
def entryOf (include_code : Bool) (row : Fetched) : Entry :=
  { filename := row.filename
    location := _format_location row.location
    snippet := pyTake row.code 200
    score := round4 (1 - row.distance)
    code := if include_code then some row.code else none }

/-- The nested-dict tree `_build_tree` produces: a Python dict mapping a
name to a child dict, in insertion order. -/
inductive PathTree : Type where
  | node : List (String × PathTree) → PathTree

def PathTree.children : PathTree → List (String × PathTree)
  | .node cs => cs

/-- Python `tree[name]` / `name in tree`: first (and, for a dict, only)
binding of the key. -/
def lookupChild : List (String × PathTree) → String → Option PathTree
  | [], _ => none
  | (k, c) :: rest, n => if k = n then some c else lookupChild rest n

/-- Python `tree[name] = t` when `name` is already a key: rebind it in
place, keeping dict order. -/
def updateChild : List (String × PathTree) → String → PathTree → List (String × PathTree)
  | [], _, _ => []
  | (k, c) :: rest, n, t => if k = n then (k, t) :: rest else (k, c) :: updateChild rest n t

/-- The `node = node.setdefault(part, {})` walk of `_build_tree`
(templates/mcp_server.py lines 100-104): an existing child is descended
into, a missing one is created empty and appended (dict insertion order)
before descending. -/
def insertParts : List String → PathTree → PathTree
  | [], t => t
  | p :: ps, .node cs =>
    match lookupChild cs p with
    | some c => .node (updateChild cs p (insertParts ps c))
    | none => .node (cs ++ [(p, insertParts ps (.node []))])

/-- Python `path.strip("/").split("/")` (templates/mcp_server.py
line 101). -/
def splitPath (s : String) : List String := (stripChars ['/'] s).splitOn "/"

/-- `_build_tree` (templates/mcp_server.py lines 97-105). -/
def _build_tree (filenames : List String) : PathTree :=
  filenames.foldl (fun t path => insertParts (splitPath path) t) (.node [])

/-- Stable insertion of one entry into a key-sorted child list: the new
entry goes in front of the first entry whose key is not smaller. -/
def insertSorted (p : String × PathTree) : List (String × PathTree) → List (String × PathTree)
  | [] => [p]
  | q :: rest => if p.1 ≤ q.1 then p :: q :: rest else q :: insertSorted p rest

/-- Python `sorted` on the child entries, as a stable insertion sort.  The
source sorts `tree.keys()` and indexes `tree[name]`; a dict's keys are
unique, so that is the same as iterating the key-sorted items. -/
def sortPairs : List (String × PathTree) → List (String × PathTree)
  | [] => []
  | p :: rest => insertSorted p (sortPairs rest)

/-- The loop body of `_render_tree` (templates/mcp_server.py lines
112-118) over the already-sorted entries: the entry at `i == len - 1` is
exactly the one with an empty tail, it gets the terminal connector and the
plain four-space extension; every other entry gets the branch connector
and the bar extension; a child dict is recursed into only when non-empty
(`if tree[name]:`), which re-enters the function on its sorted entries. -/
def renderList : List (String × PathTree) → String → List String
  | [], _ => []
  | (name, c) :: rest, pre =>
    (pre ++ (if rest.isEmpty then "└── " else "├── ") ++ name) ::
      ((if c.children.isEmpty then []
        else renderList (sortPairs c.children)
          (pre ++ (if rest.isEmpty then "    " else "│   "))) ++
       renderList rest pre)
termination_by l _ => sizeOf l
decreasing_by
  · have hins : ∀ (p : String × PathTree) (l : List (String × PathTree)),
        sizeOf (insertSorted p l) = 1 + sizeOf p + sizeOf l := by
      intro p l
      induction l with
      | nil => simp [insertSorted]
      | cons q rest ih =>
        by_cases h : p.1 ≤ q.1
        · simp [insertSorted, h]
          try omega
        · simp [insertSorted, h, ih]
          try omega
    have hsort : ∀ l : List (String × PathTree), sizeOf (sortPairs l) = sizeOf l := by
      intro l
      induction l with
      | nil => simp [sortPairs]
      | cons p rest ih => simp [sortPairs, hins, ih]
    have hch : sizeOf c.children < sizeOf c := by
      cases c with
      | node cs => simp [PathTree.children]
    simp only [hsort]
    simp
    try omega
  · simp
    try omega

/-- `_render_tree` (templates/mcp_server.py lines 108-119). -/
def _render_tree (t : PathTree) (pre : String) : List String :=
  renderList (sortPairs t.children) pre

/-- Recursively key-sort every level of a tree: the canonical form of a
Python dict tree, on which dict equality (which ignores insertion order)
becomes Lean equality. -/
def canonList : List (String × PathTree) → List (String × PathTree)
  | [] => []
  | (n, c) :: rest => (n, .node (canonList (sortPairs c.children))) :: canonList rest
termination_by l => sizeOf l
decreasing_by
  · have hins : ∀ (p : String × PathTree) (l : List (String × PathTree)),
        sizeOf (insertSorted p l) = 1 + sizeOf p + sizeOf l := by
      intro p l
      induction l with
      | nil => simp [insertSorted]
      | cons q rest ih =>
        by_cases h : p.1 ≤ q.1
        · simp [insertSorted, h]
          try omega
        · simp [insertSorted, h, ih]
          try omega
    have hsort : ∀ l : List (String × PathTree), sizeOf (sortPairs l) = sizeOf l := by
      intro l
      induction l with
      | nil => simp [sortPairs]
      | cons p rest ih => simp [sortPairs, hins, ih]
    have hch : sizeOf c.children < sizeOf c := by
      cases c with
      | node cs => simp [PathTree.children]
    simp only [hsort]
    simp
    try omega
  · simp
    try omega

def canonTree (t : PathTree) : PathTree := .node (canonList (sortPairs t.children))

/-- Claim-side renderer, walking an already canonically ordered child list
in the order given: the last entry at a level gets `└── `, every other
entry `├── `; a non-empty child is rendered with the prefix extended by
four spaces after a last entry and by the continuation glyph plus three
spaces otherwise. -/
def specLinesList : List (String × PathTree) → String → List String
  | [], _ => []
  | (name, c) :: rest, pre =>
    (pre ++ (if rest.isEmpty then "└── " else "├── ") ++ name) ::
      ((if c.children.isEmpty then []
        else specLinesList c.children
          (pre ++ (if rest.isEmpty then "    " else "│   "))) ++
       specLinesList rest pre)
termination_by l _ => sizeOf l
decreasing_by
  · have hch : sizeOf c.children < sizeOf c := by
      cases c with
      | node cs => simp [PathTree.children]
    simp
    try omega
  · simp
    try omega

/-- Claim-side rendering of a (canonically ordered) tree. -/
def specLines (t : PathTree) (pre : String) : List String :=
  specLinesList t.children pre

/-- The `SELECT DISTINCT filename FROM t ORDER BY filename` of
`get_project_structure` (templates/mcp_server.py lines 130-132), executed
by the external store: the distinct filenames, sorted. -/
def insertStr (x : String) : List String → List String
  | [] => [x]
  | y :: rest => if x ≤ y then x :: y :: rest else y :: insertStr x rest

/-- The `ORDER BY filename`, as a stable insertion sort. -/
def sortStrings : List String → List String
  | [] => []
  | x :: rest => insertStr x (sortStrings rest)

def distinctFilenames {E : Type} (store : List (Row E)) : List String :=
  sortStrings (store.map Row.filename).dedup

/-- `get_project_structure` (templates/mcp_server.py lines 126-137); the
Python call `_render_tree(tree)` uses the default prefix `""`. -/
def get_project_structure {E : Type} (store : List (Row E)) : String :=
  let filenames := distinctFilenames store
  if filenames = [] then "(no files indexed)"
  else String.intercalate "\n" (_render_tree (_build_tree filenames) "")

/-- One chunk row produced by the indexing flow: the fields collected at
templates/main.py lines 56-61, keyed by `(filename, location)`
(line 66). -/
structure IndexRow (V : Type) where
  filename : String
  location : String
  code : String
  embedding : V

/-- The `(filename, location)` primary key (templates/main.py line 66). -/
def rowKey {V : Type} (r : IndexRow V) : String × String := (r.filename, r.location)

/-- The pipeline's persistent state: the per-file change fingerprints the
engine keeps outside the chunk table (§4.1), and the chunk table itself. -/
structure PipelineState (V : Type) where
  fingerprints : List (String × String)
  table : List (IndexRow V)

/-- Upsert by primary key (§4.2): any row with the same key is replaced. -/
def upsertRow {V : Type} (t : List (IndexRow V)) (r : IndexRow V) : List (IndexRow V) :=
  t.filter (fun x => decide (rowKey x ≠ rowKey r)) ++ [r]

/-- Record a file's new fingerprint, replacing any previous one. -/
def upsertFp (fps : List (String × String)) (f c : String) : List (String × String) :=
  fps.filter (fun p => decide (p.1 ≠ f)) ++ [(f, c)]

/-- Modelled from the spec: one incremental pass of the indexing flow
(templates/main.py `code_embedding_flow`) over a single source file.  The
incremental execution engine that decides whether a file changed is the
external cocoindex runtime, not code under src/; per §4.1 it keeps a
per-file change fingerprint outside the chunk table (here the file content
itself, standing for a content hash), skips all pipeline work — chunking
and embedding — when the fingerprint is unchanged, and otherwise replaces
the file's prior chunk rows with the freshly chunked and embedded rows,
upserting by the `(filename, location)` primary key.  `chunker` is the
external chunk capability (`SplitRecursively`), returning
`(location, text)` pairs; `embed` the external embedder
(`code_to_embedding`).  Returns the new state and the number of embedder
calls made. -/
def processFile {V : Type} (chunker : String → List (String × String)) (embed : String → V)
    (st : PipelineState V) (fname content : String) : PipelineState V × ℕ :=
  if st.fingerprints.lookup fname = some content then (st, 0)
  else
    let chunks := chunker content
    let newRows := chunks.map fun c => IndexRow.mk fname c.1 c.2 (embed c.2)
    let cleaned := st.table.filter fun r => decide (r.filename ≠ fname)
    ⟨{ fingerprints := upsertFp st.fingerprints fname content
       table := newRows.foldl upsertRow cleaned }, chunks.length⟩

/-- The SQL statements the two tools can issue against the chunk table,
with the write statements of the schema included so that reads are not
trivially the only state transformers. -/
inductive SqlStmt (E : Type) : Type where
  | selectNearest (dist : E → ℚ) (limit : ℤ)
  | selectDistinct
  | insertRow (r : Row E)
  | deleteByFilename (f : String)

/-- The effect of one statement on the chunk table: a SELECT leaves it
unchanged, INSERT appends, DELETE removes. -/
def execStmt {E : Type} : SqlStmt E → List (Row E) → List (Row E)
  | .selectNearest _ _, store => store
  | .selectDistinct, store => store
  | .insertRow r, store => store ++ [r]
  | .deleteByFilename f, store => store.filter fun r => decide (r.filename ≠ f)

def runStmts {E : Type} (stmts : List (SqlStmt E)) (store : List (Row E)) : List (Row E) :=
  stmts.foldl (fun s stmt => execStmt stmt s) store

/-- The statement list `search_code` issues: exactly the one SELECT of
templates/mcp_server.py lines 71-79. -/
def searchStmts {E : Type} (dist : E → ℚ) (top_k : ℤ) : List (SqlStmt E) :=
  [.selectNearest dist top_k]

/-- The statement list `get_project_structure` issues: exactly the one
SELECT DISTINCT of templates/mcp_server.py lines 130-132. -/
def structureStmts (E : Type) : List (SqlStmt E) :=
  [.selectDistinct]

/-- Canonicalization of a single child entry. -/
def canonPair (q : String × PathTree) : String × PathTree := (q.1, canonTree q.2)

/-! ## Helper lemmas -/

theorem roundHalfEven_floor_le (q : ℚ) : ⌊q⌋ ≤ roundHalfEven q := by
  unfold roundHalfEven
  dsimp only
  split_ifs <;> omega

theorem roundHalfEven_le_floor_add_one (q : ℚ) : roundHalfEven q ≤ ⌊q⌋ + 1 := by
  unfold roundHalfEven
  dsimp only
  split_ifs <;> omega

theorem roundHalfEven_mono {q q' : ℚ} (h : q ≤ q') : roundHalfEven q ≤ roundHalfEven q' := by
  rcases lt_or_eq_of_le (Int.floor_le_floor h) with hf | hf
  · calc roundHalfEven q ≤ ⌊q⌋ + 1 := roundHalfEven_le_floor_add_one q
      _ ≤ ⌊q'⌋ := by omega
      _ ≤ roundHalfEven q' := roundHalfEven_floor_le q'
  · have hr : q - (⌊q⌋ : ℚ) ≤ q' - (⌊q'⌋ : ℚ) := by
      rw [← hf]
      linarith
    unfold roundHalfEven
    dsimp only
    rw [← hf]
    split_ifs with h1 h2 h3 h4 h5 h6 h7 h8 <;> first | omega | linarith

theorem round4_mono {q q' : ℚ} (h : q ≤ q') : round4 q ≤ round4 q' := by
  unfold round4
  have h1 : roundHalfEven (q * 10000) ≤ roundHalfEven (q' * 10000) :=
    roundHalfEven_mono (by linarith)
  have h2 : ((roundHalfEven (q * 10000) : ℤ) : ℚ) ≤ ((roundHalfEven (q' * 10000) : ℤ) : ℚ) := by
    exact_mod_cast h1
  linarith

theorem mem_insertByDist {a x : Fetched} {l : List Fetched} :
    a ∈ insertByDist x l ↔ a = x ∨ a ∈ l := by
  induction l with
  | nil => simp [insertByDist]
  | cons y rest ih =>
    by_cases h : x.distance ≤ y.distance
    · simp [insertByDist, h, or_comm, or_assoc, or_left_comm]
    · simp [insertByDist, h, ih]
      tauto

theorem pairwise_insertByDist {x : Fetched} {l : List Fetched}
    (h : l.Pairwise fun a b => a.distance ≤ b.distance) :
    (insertByDist x l).Pairwise fun a b => a.distance ≤ b.distance := by
  induction l with
  | nil => simp [insertByDist]
  | cons y rest ih =>
    rw [List.pairwise_cons] at h
    by_cases hx : x.distance ≤ y.distance
    · simp only [insertByDist, if_pos hx]
      refine List.pairwise_cons.mpr ⟨?_, List.pairwise_cons.mpr h⟩
      intro b hb
      rcases List.mem_cons.mp hb with rfl | hb
      · exact hx
      · exact le_trans hx (h.1 b hb)
    · simp only [insertByDist, if_neg hx]
      refine List.pairwise_cons.mpr ⟨?_, ih h.2⟩
      intro b hb
      rcases mem_insertByDist.mp hb with rfl | hb
      · exact le_of_not_le hx
      · exact h.1 b hb

theorem pairwise_sortByDist (l : List Fetched) :
    (sortByDist l).Pairwise fun a b => a.distance ≤ b.distance := by
  induction l with
  | nil => simp [sortByDist]
  | cons x rest ih => exact pairwise_insertByDist ih

/-- The rows handed to the Python loop are ordered by ascending distance. -/
theorem nearest_pairwise {E : Type} (dist : E → ℚ) (store : List (Row E)) (limit : ℤ) :
    (nearest dist store limit).Pairwise fun a b => a.distance ≤ b.distance := by
  unfold nearest
  exact List.Pairwise.sublist (List.take_sublist _ _) (pairwise_sortByDist _)

/-- The Python result loop, unrolled: a fold of append-if-above-threshold
equals filtering and mapping. -/
theorem search_foldl_eq (inc : Bool) (ms : ℚ) (rows : List Fetched) :
    ∀ acc : List Entry,
      rows.foldl
        (fun results row =>
          let score := round4 (1 - row.distance)
          if score < ms then results
          else
            results ++ [{ filename := row.filename
                          location := _format_location row.location
                          snippet := pyTake row.code 200
                          score := score
                          code := if inc then some row.code else none }]) acc
      = acc ++ (rows.filter fun r => decide (¬ round4 (1 - r.distance) < ms)).map (entryOf inc) := by
  induction rows with
  | nil => intro acc; simp
  | cons r rest ih =>
    intro acc
    by_cases h : round4 (1 - r.distance) < ms
    · simp only [List.foldl_cons, List.filter_cons]
      rw [ih]
      simp [h]
    · simp only [List.foldl_cons, List.filter_cons]
      rw [ih]
      simp [h, entryOf]


/-! ## Claim theorems (first batch) -/

/-- C1: for every query distance function, store contents, top_k,
include_code and min_score, the list `search_code` returns is exactly the
subsequence of the up-to-top_k nearest rows (ascending cosine distance)
whose score `round4 (1 - d)` is at least min_score, kept in that
ascending-distance order (scores non-increasing) without re-sorting, each
element being the `entryOf` record: formatted location, 200-codepoint
snippet, score, and a full `code` field exactly when include_code is
true. -/
theorem search_code_is_filtered_nearest :
    ∀ (E : Type) (dist : E → ℚ) (store : List (Row E)) (top_k : ℤ)
      (include_code : Bool) (min_score : ℚ),
      search_code dist store top_k include_code min_score
        = ((nearest dist store top_k).filter
            (fun r => decide (min_score ≤ round4 (1 - r.distance)))).map (entryOf include_code)
      ∧ (search_code dist store top_k include_code min_score).Pairwise
          (fun a b => b.score ≤ a.score) := by
  intro E dist store top_k include_code min_score
  have heq : search_code dist store top_k include_code min_score
      = ((nearest dist store top_k).filter
          (fun r => decide (min_score ≤ round4 (1 - r.distance)))).map (entryOf include_code) := by
    unfold search_code
    rw [search_foldl_eq]
    rw [List.nil_append]
    congr 1
    apply List.filter_congr
    intro r _
    simp [not_lt]
  refine ⟨heq, ?_⟩
  rw [heq]
  have hsorted := nearest_pairwise dist store top_k
  have hfil : ((nearest dist store top_k).filter
      (fun r => decide (min_score ≤ round4 (1 - r.distance)))).Pairwise
      (fun a b => a.distance ≤ b.distance) := hsorted.filter _
  rw [List.pairwise_map]
  apply hfil.imp
  intro a b hab
  show (entryOf include_code b).score ≤ (entryOf include_code a).score
  simp only [entryOf]
  exact round4_mono (by linarith)

/-- C2: every score `search_code` emits is `round4 (1 - d)` for the cosine
distance `d` of the corresponding fetched row, with no clamping; in
particular a distance of 3/2 yields the negative score -1/2, returned
as-is. -/
theorem search_code_score_unclamped :
    (∀ (E : Type) (dist : E → ℚ) (store : List (Row E)) (top_k : ℤ)
       (include_code : Bool) (min_score : ℚ),
       ∀ e ∈ search_code dist store top_k include_code min_score,
         ∃ r ∈ nearest dist store top_k, e.score = round4 (1 - r.distance))
    ∧ search_code (fun _ : Unit => 3/2) [⟨"f", none, "c", some ()⟩] 1 false (-1)
        = [{ filename := "f", location := "", snippet := "c", score := -(1/2), code := none }] := by
  constructor
  · intro E dist store top_k include_code min_score e he
    rw [(search_code_is_filtered_nearest E dist store top_k include_code min_score).1] at he
    rcases List.mem_map.mp he with ⟨r, hr, hre⟩
    exact ⟨r, List.mem_of_mem_filter hr, by rw [← hre]; rfl⟩
  · unfold search_code nearest
    simp only [List.filterMap_cons, List.filterMap_nil, Option.map_some]
    norm_num [sortByDist, insertByDist, List.take, List.foldl, round4, roundHalfEven,
      _format_location, pyTake]

/-- C3: rows with a missing embedding never influence `nearest` nor
`search_code`: the results over any store equal the results over the store
with all malformed rows removed, so a malformed row is never returned,
never scored, and never causes a failure. -/
theorem malformed_rows_excluded :
    ∀ (E : Type) (dist : E → ℚ) (store : List (Row E)) (limit : ℤ),
      nearest dist store limit
        = nearest dist (store.filter fun r => r.embedding.isSome) limit
      ∧ ∀ (include_code : Bool) (min_score : ℚ),
          search_code dist store limit include_code min_score
            = search_code dist (store.filter fun r => r.embedding.isSome) limit
                include_code min_score := by
  intro E dist store limit
  have hfm : (store.filterMap fun r =>
        r.embedding.map fun e => Fetched.mk r.filename r.location r.code (dist e))
      = ((store.filter fun r => r.embedding.isSome).filterMap fun r =>
          r.embedding.map fun e => Fetched.mk r.filename r.location r.code (dist e)) := by
    induction store with
    | nil => rfl
    | cons x rest ih =>
      cases hx : x.embedding with
      | none => simp [List.filterMap_cons, List.filter_cons, hx, ih]
      | some e => simp [List.filterMap_cons, List.filter_cons, hx, ih]
  have hn : nearest dist store limit
      = nearest dist (store.filter fun r => r.embedding.isSome) limit := by
    unfold nearest
    rw [hfm]
  exact ⟨hn, fun include_code min_score => by unfold search_code; rw [hn]⟩

/-- C4: `search_code` returns the empty list on an empty store, and the
empty list for every nonpositive top_k regardless of store contents. -/
theorem search_code_empty_cases :
    (∀ (E : Type) (dist : E → ℚ) (top_k : ℤ) (include_code : Bool) (min_score : ℚ),
       search_code dist ([] : List (Row E)) top_k include_code min_score = [])
    ∧ (∀ (E : Type) (dist : E → ℚ) (store : List (Row E)) (top_k : ℤ)
         (include_code : Bool) (min_score : ℚ), top_k ≤ 0 →
         search_code dist store top_k include_code min_score = []) := by
  constructor
  · intro E dist top_k include_code min_score
    rw [(search_code_is_filtered_nearest E dist [] top_k include_code min_score).1]
    simp [nearest, sortByDist]
  · intro E dist store top_k include_code min_score hk
    rw [(search_code_is_filtered_nearest E dist store top_k include_code min_score).1]
    unfold nearest
    rw [Int.toNat_of_nonpos hk]
    simp

/-- Witness for C2: the universally quantified part of
`search_code_score_unclamped`, applied at a concrete store and query. -/
theorem search_code_score_unclamped_witness :
    ∃ r ∈ nearest (fun _ : Unit => 3/2) [⟨"f", none, "c", some ()⟩] 1,
      ({ filename := "f", location := "", snippet := "c", score := -(1/2),
         code := none } : Entry).score = round4 (1 - r.distance) :=
  search_code_score_unclamped.1 Unit (fun _ => 3/2) [⟨"f", none, "c", some ()⟩] 1 false (-1)
    { filename := "f", location := "", snippet := "c", score := -(1/2), code := none }
    (by rw [search_code_score_unclamped.2]; exact List.mem_singleton.mpr rfl)

/-- Witness for C4: a negative top_k on a non-empty store returns the
empty list. -/
theorem search_code_empty_cases_witness :
    search_code (fun _ : Unit => 0) [⟨"f", none, "c", some ()⟩] (-3) false 0 = [] :=
  search_code_empty_cases.2 Unit (fun _ => 0) [⟨"f", none, "c", some ()⟩] (-3) false 0
    (by decide)

/-- C6: `_format_location` agrees on every input with the spec-side
formatter built from §4.5 clause by clause, and reproduces the spec's four
examples; being a total function, it never raises. -/
theorem format_location_spec :
    (∀ loc : Option String, _format_location loc = formatLocationSpec loc)
    ∧ _format_location none = ""
    ∧ _format_location (some "L10-L25") = "L10-L25"
    ∧ _format_location (some "(0, 500)") = "offset 0-500"
    ∧ _format_location (some "unparseable") = "unparseable" := by
  refine ⟨?_, by decide, by decide, by decide, by decide⟩
  intro loc
  cases loc with
  | none => rfl
  | some s =>
    unfold _format_location formatLocationSpec offsetPairRender
    by_cases h : startsWithChar s 'L' || startsWithChar s 'l'
    · simp [h]
    · simp only [h]
      cases hsplit : splitOnComma (stripChars bracketChars s) with
      | nil => simp
      | cons a rest =>
        cases rest with
        | nil => simp
        | cons b rest2 =>
          cases rest2 with
          | nil => simp
          | cons c rest3 => simp

/-- C10: neither tool modifies the chunk table: running the statements
`search_code` issues, or the statements `get_project_structure` issues,
leaves the store exactly as it was. -/
theorem tools_read_only :
    ∀ (E : Type) (store : List (Row E)) (dist : E → ℚ) (top_k : ℤ),
      runStmts (searchStmts dist top_k) store = store
      ∧ runStmts (structureStmts E) store = store := by
  intro E store dist top_k
  exact ⟨rfl, rfl⟩



/-! ## C5: incremental indexing -/

theorem lookup_upsertFp (fps : List (String × String)) (f c : String) :
    (upsertFp fps f c).lookup f = some c := by
  induction fps with
  | nil => simp [upsertFp, List.lookup]
  | cons p rest ih =>
    by_cases h : p.1 = f
    · simpa [upsertFp, List.filter, h] using ih
    · have hbeq : (f == p.1) = false := by simp [Ne.symm h]
      simpa [upsertFp, List.filter, h, List.lookup, hbeq] using ih

theorem processFile_fingerprint {V : Type} (chunker : String → List (String × String))
    (embed : String → V) (st : PipelineState V) (fname content : String) :
    ((processFile chunker embed st fname content).1).fingerprints.lookup fname
      = some content := by
  by_cases h : st.fingerprints.lookup fname = some content
  · simp [processFile, h]
  · simp [processFile, h, lookup_upsertFp]

theorem nodup_upsertRow {V : Type} {t : List (IndexRow V)} (r : IndexRow V)
    (h : (t.map rowKey).Nodup) : ((upsertRow t r).map rowKey).Nodup := by
  unfold upsertRow
  rw [List.map_append]
  apply List.Nodup.append
  · exact h.sublist ((List.filter_sublist t).map rowKey)
  · simp
  · intro a ha hb
    simp only [List.map_cons, List.map_nil, List.mem_singleton] at hb
    rcases List.mem_map.mp ha with ⟨x, hx, hxa⟩
    have := List.of_mem_filter hx
    rw [decide_eq_true_eq] at this
    exact this (hxa.trans hb)

theorem nodup_foldl_upsert {V : Type} (l : List (IndexRow V)) :
    ∀ acc : List (IndexRow V), (acc.map rowKey).Nodup →
      ((l.foldl upsertRow acc).map rowKey).Nodup := by
  induction l with
  | nil => intro acc h; simpa using h
  | cons x xs ih =>
    intro acc h
    exact ih (upsertRow acc x) (nodup_upsertRow x h)

theorem mem_foldl_upsert {V : Type} {r : IndexRow V} (l : List (IndexRow V)) :
    ∀ acc : List (IndexRow V), r ∈ l.foldl upsertRow acc → r ∈ acc ∨ r ∈ l := by
  induction l with
  | nil => intro acc h; exact Or.inl h
  | cons x xs ih =>
    intro acc h
    rcases ih (upsertRow acc x) h with h1 | h1
    · unfold upsertRow at h1
      rcases List.mem_append.mp h1 with h2 | h2
      · exact Or.inl (List.mem_of_mem_filter h2)
      · simp only [List.mem_singleton] at h2
        exact Or.inr (h2 ▸ List.mem_cons_self x xs)
    · exact Or.inr (List.mem_cons_of_mem x h1)

/-- C5: running the pipeline again over a file whose content is unchanged
since the previous run makes zero embedder calls and leaves the state as
it was; running it over a changed file keeps the chunk-table keys free of
duplicates and leaves for that file only rows freshly produced by the
chunker and embedder — all prior rows are replaced. -/
theorem incremental_indexing :
    (∀ (V : Type) (chunker : String → List (String × String)) (embed : String → V)
       (st : PipelineState V) (fname content : String),
       processFile chunker embed (processFile chunker embed st fname content).1 fname content
         = ((processFile chunker embed st fname content).1, 0))
    ∧ (∀ (V : Type) (chunker : String → List (String × String)) (embed : String → V)
         (st : PipelineState V) (fname content : String),
         st.fingerprints.lookup fname ≠ some content →
         ((st.table.map rowKey).Nodup →
            ((processFile chunker embed st fname content).1.table.map rowKey).Nodup)
         ∧ ∀ r ∈ (processFile chunker embed st fname content).1.table,
             r.filename = fname →
             r ∈ (chunker content).map fun c => IndexRow.mk fname c.1 c.2 (embed c.2)) := by
  constructor
  · intro V chunker embed st fname content
    set st1 := (processFile chunker embed st fname content).1 with hst1
    have h : st1.fingerprints.lookup fname = some content := by
      rw [hst1]
      exact processFile_fingerprint chunker embed st fname content
    unfold processFile
    rw [if_pos h]
  · intro V chunker embed st fname content hchanged
    constructor
    · intro hnodup
      unfold processFile
      rw [if_neg hchanged]
      apply nodup_foldl_upsert
      exact hnodup.sublist ((List.filter_sublist st.table).map rowKey)
    · intro r hr hfile
      unfold processFile at hr
      rw [if_neg hchanged] at hr
      simp only at hr
      rcases mem_foldl_upsert _ _ hr with h1 | h1
      · have := List.of_mem_filter h1
        rw [decide_eq_true_eq] at this
        exact absurd hfile this
      · exact h1

/-- Witness for C5: a changed file at a concrete state; the resulting
table has no duplicate keys. -/
theorem incremental_indexing_witness :
    ((processFile (fun _ => [("L1", "x")]) (fun _ => ())
        ⟨[], [⟨"f", "L9", "old", ()⟩]⟩ "f" "new").1.table.map rowKey).Nodup :=
  (incremental_indexing.2 Unit (fun _ => [("L1", "x")]) (fun _ => ())
      ⟨[], [⟨"f", "L9", "old", ()⟩]⟩ "f" "new" (by simp)).1 (by decide)



/-! ## PathTree: sorting and association-list lemmas -/

theorem mem_insertSorted {a p : String × PathTree} {l : List (String × PathTree)} :
    a ∈ insertSorted p l ↔ a = p ∨ a ∈ l := by
  induction l with
  | nil => simp [insertSorted]
  | cons q rest ih =>
    by_cases h : p.1 ≤ q.1
    · simp [insertSorted, h, or_comm, or_assoc, or_left_comm]
    · simp [insertSorted, h, ih]
      tauto

theorem mem_sortPairs {a : String × PathTree} {l : List (String × PathTree)} :
    a ∈ sortPairs l ↔ a ∈ l := by
  induction l with
  | nil => simp [sortPairs]
  | cons p rest ih => simp [sortPairs, mem_insertSorted, ih]

theorem length_insertSorted (p : String × PathTree) (l : List (String × PathTree)) :
    (insertSorted p l).length = l.length + 1 := by
  induction l with
  | nil => simp [insertSorted]
  | cons q rest ih =>
    by_cases h : p.1 ≤ q.1
    · simp [insertSorted, h]
    · simp [insertSorted, h, ih]

theorem length_sortPairs (l : List (String × PathTree)) :
    (sortPairs l).length = l.length := by
  induction l with
  | nil => simp [sortPairs]
  | cons p rest ih => simp [sortPairs, length_insertSorted, ih]

theorem canonPair_fst (q : String × PathTree) : (canonPair q).1 = q.1 := rfl

theorem canonList_cons (q : String × PathTree) (l : List (String × PathTree)) :
    canonList (q :: l) = canonPair q :: canonList l := by
  cases q
  simp [canonList, canonPair, canonTree]

theorem length_canonList (l : List (String × PathTree)) :
    (canonList l).length = l.length := by
  induction l with
  | nil => simp [canonList]
  | cons q rest ih =>
    rw [canonList_cons]
    simp [ih]

theorem pairwise_keys_insertSorted {p : String × PathTree} {l : List (String × PathTree)}
    (h : (l.map Prod.fst).Pairwise (· ≤ ·)) :
    ((insertSorted p l).map Prod.fst).Pairwise (· ≤ ·) := by
  induction l with
  | nil => simp [insertSorted]
  | cons q rest ih =>
    rw [List.map_cons, List.pairwise_cons] at h
    by_cases hle : p.1 ≤ q.1
    · simp only [insertSorted, if_pos hle, List.map_cons]
      refine List.pairwise_cons.mpr ⟨?_, List.pairwise_cons.mpr h⟩
      intro b hb
      rcases List.mem_cons.mp hb with rfl | hb
      · exact hle
      · exact le_trans hle (h.1 b hb)
    · simp only [insertSorted, if_neg hle, List.map_cons]
      refine List.pairwise_cons.mpr ⟨?_, ih h.2⟩
      intro b hb
      rcases List.mem_map.mp hb with ⟨x, hx, hxb⟩
      rcases mem_insertSorted.mp hx with rfl | hx
      · exact hxb ▸ le_of_not_le hle
      · exact h.1 b (hxb ▸ List.mem_map_of_mem Prod.fst hx)

theorem pairwise_keys_sortPairs (l : List (String × PathTree)) :
    ((sortPairs l).map Prod.fst).Pairwise (· ≤ ·) := by
  induction l with
  | nil => simp [sortPairs]
  | cons p rest ih => exact pairwise_keys_insertSorted ih

theorem lookupChild_eq_none {cs : List (String × PathTree)} {p : String} :
    lookupChild cs p = none ↔ ∀ q ∈ cs, q.1 ≠ p := by
  induction cs with
  | nil => simp [lookupChild]
  | cons q rest ih =>
    by_cases h : q.1 = p
    · simp [lookupChild, h]
    · simp [lookupChild, h, ih]

theorem lookupChild_append_some {cs l : List (String × PathTree)} {p : String}
    {c : PathTree} (h : lookupChild cs p = some c) :
    lookupChild (cs ++ l) p = some c := by
  induction cs with
  | nil => simp [lookupChild] at h
  | cons q rest ih =>
    by_cases hq : q.1 = p
    · simp [lookupChild, hq] at h ⊢
      exact h
    · simp [lookupChild, hq] at h ⊢
      exact ih h

theorem lookupChild_append_none {cs : List (String × PathTree)} {p : String}
    (h : lookupChild cs p = none) (l : List (String × PathTree)) :
    lookupChild (cs ++ l) p = lookupChild l p := by
  induction cs with
  | nil => simp
  | cons q rest ih =>
    by_cases hq : q.1 = p
    · simp [lookupChild, hq] at h
    · simp [lookupChild, hq] at h ⊢
      exact ih h

theorem lookupChild_updateChild_self {cs : List (String × PathTree)} {p : String}
    {c : PathTree} (h : lookupChild cs p = some c) (t : PathTree) :
    lookupChild (updateChild cs p t) p = some t := by
  induction cs with
  | nil => simp [lookupChild] at h
  | cons q rest ih =>
    by_cases hq : q.1 = p
    · simp [lookupChild, updateChild, hq]
    · simp [lookupChild, updateChild, hq] at h ⊢
      exact ih h

theorem lookupChild_updateChild_ne {cs : List (String × PathTree)} {q p : String}
    (h : q ≠ p) (t : PathTree) :
    lookupChild (updateChild cs q t) p = lookupChild cs p := by
  induction cs with
  | nil => simp [updateChild]
  | cons x rest ih =>
    by_cases hx : x.1 = q
    · simp [updateChild, hx, lookupChild, h]
    · by_cases hp : x.1 = p
      · simp [updateChild, hx, lookupChild, hp, Ne.symm h]
      · simp [updateChild, hx, lookupChild, hp, ih]

theorem updateChild_updateChild (cs : List (String × PathTree)) (p : String)
    (t u : PathTree) : updateChild (updateChild cs p t) p u = updateChild cs p u := by
  induction cs with
  | nil => simp [updateChild]
  | cons q rest ih =>
    by_cases hq : q.1 = p
    · simp [updateChild, hq]
    · simp [updateChild, hq, ih]

theorem updateChild_comm {p q : String} (h : p ≠ q) (cs : List (String × PathTree))
    (t u : PathTree) :
    updateChild (updateChild cs p t) q u = updateChild (updateChild cs q u) p t := by
  induction cs with
  | nil => simp [updateChild]
  | cons x rest ih =>
    by_cases hp : x.1 = p
    · simp [updateChild, hp, h]
    · by_cases hq : x.1 = q
      · simp [updateChild, hp, hq, Ne.symm h]
      · simp [updateChild, hp, hq, ih]

theorem updateChild_append_some {cs : List (String × PathTree)} {p : String}
    {c : PathTree} (h : lookupChild cs p = some c) (l : List (String × PathTree))
    (t : PathTree) : updateChild (cs ++ l) p t = updateChild cs p t ++ l := by
  induction cs with
  | nil => simp [lookupChild] at h
  | cons q rest ih =>
    by_cases hq : q.1 = p
    · simp [updateChild, hq]
    · simp [lookupChild, hq] at h
      simp [updateChild, hq, ih h]

theorem updateChild_append_none {cs : List (String × PathTree)} {p : String}
    (h : lookupChild cs p = none) (c t : PathTree) :
    updateChild (cs ++ [(p, c)]) p t = cs ++ [(p, t)] := by
  induction cs with
  | nil => simp [updateChild]
  | cons q rest ih =>
    by_cases hq : q.1 = p
    · simp [lookupChild, hq] at h
    · simp [lookupChild, hq] at h
      simp [updateChild, hq, ih h]



theorem lookupChild_insertSorted (x : String × PathTree) (p : String)
    (l : List (String × PathTree)) :
    lookupChild (insertSorted x l) p
      = if x.1 = p then some x.2 else lookupChild l p := by
  induction l with
  | nil => simp [insertSorted, lookupChild]
  | cons q rest ih =>
    by_cases hle : x.1 ≤ q.1
    · simp [insertSorted, hle, lookupChild]
    · by_cases hq : q.1 = p
      · have hk : ¬ x.1 = p := fun hxp => hle (le_of_eq (hxp.trans hq.symm))
        simp only [insertSorted, if_neg hle, lookupChild, if_pos hq, if_neg hk]
      · simp only [insertSorted, if_neg hle, lookupChild, if_neg hq, ih]

theorem lookupChild_sortPairs (cs : List (String × PathTree)) (p : String) :
    lookupChild (sortPairs cs) p = lookupChild cs p := by
  induction cs with
  | nil => simp [sortPairs]
  | cons x rest ih =>
    by_cases hx : x.1 = p
    · simp [sortPairs, lookupChild_insertSorted, hx, lookupChild]
    · simp [sortPairs, lookupChild_insertSorted, hx, lookupChild, ih]

theorem updateChild_insertSorted_self (k : String) (c t : PathTree)
    (l : List (String × PathTree)) :
    updateChild (insertSorted (k, c) l) k t = insertSorted (k, t) l := by
  induction l with
  | nil => simp [insertSorted, updateChild]
  | cons q rest ih =>
    by_cases hle : k ≤ q.1
    · simp [insertSorted, hle, updateChild]
    · have hq : ¬ q.1 = k := fun h => hle (le_of_eq h.symm)
      simp [insertSorted, hle, updateChild, hq, ih]

theorem updateChild_insertSorted_ne {x : String × PathTree} {p : String}
    (hxp : x.1 ≠ p) (t : PathTree) (l : List (String × PathTree)) :
    updateChild (insertSorted x l) p t = insertSorted x (updateChild l p t) := by
  induction l with
  | nil => simp [insertSorted, updateChild, hxp]
  | cons y rest ih =>
    by_cases hle : x.1 ≤ y.1
    · by_cases hy : y.1 = p
      · simp only [insertSorted, if_pos hle, updateChild, if_neg hxp, if_pos hy]
      · simp only [insertSorted, if_pos hle, updateChild, if_neg hxp, if_neg hy]
        try simp only [insertSorted, if_pos hle]
    · by_cases hy : y.1 = p
      · simp only [insertSorted, if_neg hle, updateChild, if_pos hy]
      · simp only [insertSorted, if_neg hle, updateChild, if_neg hy, ih]

theorem sortPairs_updateChild (cs : List (String × PathTree)) (p : String) (t : PathTree) :
    sortPairs (updateChild cs p t) = updateChild (sortPairs cs) p t := by
  induction cs with
  | nil => simp [sortPairs, updateChild]
  | cons x rest ih =>
    by_cases hx : x.1 = p
    · obtain ⟨k, v⟩ := x
      simp only at hx
      subst hx
      simp [updateChild, sortPairs, updateChild_insertSorted_self]
    · simp [updateChild, hx, sortPairs, ih, updateChild_insertSorted_ne hx]

theorem insertSorted_comm {x y : String × PathTree} (hxy : x.1 ≠ y.1)
    (l : List (String × PathTree)) :
    insertSorted x (insertSorted y l) = insertSorted y (insertSorted x l) := by
  induction l with
  | nil =>
    by_cases hx : x.1 ≤ y.1
    · have hy : ¬ y.1 ≤ x.1 := fun h => hxy (le_antisymm hx h)
      simp [insertSorted, hx, hy]
    · have hy : y.1 ≤ x.1 := le_of_not_le hx
      simp [insertSorted, hx, hy]
  | cons z rest ih =>
    by_cases hxz : x.1 ≤ z.1
    · by_cases hyz : y.1 ≤ z.1
      · by_cases hxy2 : x.1 ≤ y.1
        · have hyx : ¬ y.1 ≤ x.1 := fun h => hxy (le_antisymm hxy2 h)
          simp [insertSorted, hxz, hyz, hxy2, hyx]
        · have hyx : y.1 ≤ x.1 := le_of_not_le hxy2
          simp [insertSorted, hxz, hyz, hxy2, hyx]
      · have hyx : ¬ y.1 ≤ x.1 := fun h => hyz (le_trans h hxz)
        simp [insertSorted, hxz, hyz, hyx]
    · by_cases hyz : y.1 ≤ z.1
      · have hxy3 : ¬ x.1 ≤ y.1 := fun h => hxz (le_trans h hyz)
        simp [insertSorted, hxz, hyz, hxy3]
      · simp [insertSorted, hxz, hyz, ih]

theorem sortPairs_append_absent {cs : List (String × PathTree)} {p : String}
    (h : lookupChild cs p = none) (c : PathTree) :
    sortPairs (cs ++ [(p, c)]) = insertSorted (p, c) (sortPairs cs) := by
  induction cs with
  | nil => simp [sortPairs]
  | cons x rest ih =>
    by_cases hx : x.1 = p
    · simp [lookupChild, hx] at h
    · simp only [lookupChild, if_neg hx] at h
      have hxp : x.1 ≠ (p, c).1 := hx
      rw [List.cons_append]
      show insertSorted x (sortPairs (rest ++ [(p, c)])) = _
      rw [ih h, insertSorted_comm hxp]
      rfl

theorem canonList_insertSorted (q : String × PathTree) (l : List (String × PathTree)) :
    canonList (insertSorted q l) = insertSorted (canonPair q) (canonList l) := by
  induction l with
  | nil => simp [insertSorted, canonList_cons, canonList]
  | cons x rest ih =>
    by_cases hle : q.1 ≤ x.1
    · have hle2 : (canonPair q).1 ≤ (canonPair x).1 := hle
      simp only [insertSorted, if_pos hle, canonList_cons, if_pos hle2]
    · have hle2 : ¬ (canonPair q).1 ≤ (canonPair x).1 := hle
      simp only [insertSorted, if_neg hle, canonList_cons, if_neg hle2, ih]

theorem canonList_updateChild (cs : List (String × PathTree)) (p : String) (t : PathTree) :
    canonList (updateChild cs p t) = updateChild (canonList cs) p (canonTree t) := by
  induction cs with
  | nil => simp [updateChild, canonList]
  | cons x rest ih =>
    by_cases hx : x.1 = p
    · have hx2 : (canonPair x).1 = p := hx
      simp only [updateChild, if_pos hx, canonList_cons, if_pos hx2]
      rfl
    · have hx2 : ¬ (canonPair x).1 = p := hx
      simp only [updateChild, if_neg hx, canonList_cons, if_neg hx2, ih]
      rfl

theorem lookupChild_canonList (cs : List (String × PathTree)) (p : String) :
    lookupChild (canonList cs) p = (lookupChild cs p).map canonTree := by
  induction cs with
  | nil => simp [canonList, lookupChild]
  | cons x rest ih =>
    by_cases hx : x.1 = p
    · have hx2 : (canonPair x).1 = p := hx
      simp only [canonList_cons, lookupChild, if_pos hx, if_pos hx2]
      rfl
    · have hx2 : ¬ (canonPair x).1 = p := hx
      simp only [canonList_cons, lookupChild, if_neg hx, if_neg hx2, ih]



theorem canonTree_node (cs : List (String × PathTree)) :
    canonTree (.node cs) = .node (canonList (sortPairs cs)) := rfl

theorem insertParts_cons_some {cs : List (String × PathTree)} {p : String} {c : PathTree}
    (h : lookupChild cs p = some c) (ps : List String) :
    insertParts (p :: ps) (.node cs) = .node (updateChild cs p (insertParts ps c)) := by
  simp [insertParts, h]

theorem insertParts_cons_none {cs : List (String × PathTree)} {p : String}
    (h : lookupChild cs p = none) (ps : List String) :
    insertParts (p :: ps) (.node cs)
      = .node (cs ++ [(p, insertParts ps (.node []))]) := by
  simp [insertParts, h]

theorem canon_insertParts_congr :
    ∀ (ps : List String) {t₁ t₂ : PathTree}, canonTree t₁ = canonTree t₂ →
      canonTree (insertParts ps t₁) = canonTree (insertParts ps t₂) := by
  intro ps
  induction ps with
  | nil => intro t₁ t₂ h; exact h
  | cons p ps ih =>
    intro t₁ t₂ h
    obtain ⟨cs₁⟩ := t₁
    obtain ⟨cs₂⟩ := t₂
    have hcl : canonList (sortPairs cs₁) = canonList (sortPairs cs₂) := by
      have h2 := congrArg PathTree.children h
      simpa [canonTree, PathTree.children] using h2
    have hlook : (lookupChild cs₁ p).map canonTree = (lookupChild cs₂ p).map canonTree := by
      rw [← lookupChild_sortPairs cs₁, ← lookupChild_sortPairs cs₂,
        ← lookupChild_canonList, ← lookupChild_canonList, hcl]
    cases h1 : lookupChild cs₁ p with
    | some c₁ =>
      cases h2 : lookupChild cs₂ p with
      | some c₂ =>
        rw [h1, h2] at hlook
        simp only [Option.map_some'] at hlook
        have hc : canonTree c₁ = canonTree c₂ := Option.some.inj hlook
        rw [insertParts_cons_some h1, insertParts_cons_some h2,
          canonTree_node, canonTree_node, sortPairs_updateChild, sortPairs_updateChild,
          canonList_updateChild, canonList_updateChild, hcl, ih hc]
      | none =>
        rw [h1, h2] at hlook
        exact absurd hlook (by simp)
    | none =>
      cases h2 : lookupChild cs₂ p with
      | some c₂ =>
        rw [h1, h2] at hlook
        exact absurd hlook (by simp)
      | none =>
        rw [insertParts_cons_none h1, insertParts_cons_none h2,
          canonTree_node, canonTree_node, sortPairs_append_absent h1,
          sortPairs_append_absent h2, canonList_insertSorted, canonList_insertSorted, hcl]

theorem insertParts_idem : ∀ (ps : List String) (t : PathTree),
    insertParts ps (insertParts ps t) = insertParts ps t := by
  intro ps
  induction ps with
  | nil => intro t; rfl
  | cons p ps ih =>
    intro t
    obtain ⟨cs⟩ := t
    cases h : lookupChild cs p with
    | some c =>
      rw [insertParts_cons_some h,
        insertParts_cons_some (lookupChild_updateChild_self h (insertParts ps c)),
        updateChild_updateChild, ih]
    | none =>
      have hy : lookupChild (cs ++ [(p, insertParts ps (.node []))]) p
          = some (insertParts ps (.node [])) := by
        rw [lookupChild_append_none h]
        simp [lookupChild]
      rw [insertParts_cons_none h, insertParts_cons_some hy,
        updateChild_append_none h, ih]

theorem canon_insertParts_swap_aux :
    ∀ (n : ℕ) (ps qs : List String) (t : PathTree), ps.length + qs.length ≤ n →
      canonTree (insertParts ps (insertParts qs t))
        = canonTree (insertParts qs (insertParts ps t)) := by
  intro n
  induction n with
  | zero =>
    intro ps qs t hlen
    have hps : ps = [] := List.length_eq_zero.mp (by omega)
    have hqs : qs = [] := List.length_eq_zero.mp (by omega)
    subst hps
    subst hqs
    rfl
  | succ n ihn =>
    intro ps qs t hlen
    cases ps with
    | nil => rfl
    | cons p ps =>
      cases qs with
      | nil => rfl
      | cons q qs =>
        obtain ⟨cs⟩ := t
        simp only [List.length_cons] at hlen
        by_cases hpq : p = q
        · subst hpq
          cases h : lookupChild cs p with
          | some c =>
            rw [insertParts_cons_some h, insertParts_cons_some h,
              insertParts_cons_some (lookupChild_updateChild_self h (insertParts qs c)),
              insertParts_cons_some (lookupChild_updateChild_self h (insertParts ps c)),
              updateChild_updateChild, updateChild_updateChild,
              canonTree_node, canonTree_node, sortPairs_updateChild, sortPairs_updateChild,
              canonList_updateChild, canonList_updateChild,
              ihn ps qs c (by omega)]
          | none =>
            have hyq : lookupChild (cs ++ [(p, insertParts qs (.node []))]) p
                = some (insertParts qs (.node [])) := by
              rw [lookupChild_append_none h]
              simp [lookupChild]
            have hyp : lookupChild (cs ++ [(p, insertParts ps (.node []))]) p
                = some (insertParts ps (.node [])) := by
              rw [lookupChild_append_none h]
              simp [lookupChild]
            rw [insertParts_cons_none h, insertParts_cons_none h,
              insertParts_cons_some hyq, insertParts_cons_some hyp,
              updateChild_append_none h, updateChild_append_none h,
              canonTree_node, canonTree_node,
              sortPairs_append_absent h, sortPairs_append_absent h,
              canonList_insertSorted, canonList_insertSorted]
            have hc : canonTree (insertParts ps (insertParts qs (.node [])))
                = canonTree (insertParts qs (insertParts ps (.node []))) :=
              ihn ps qs (.node []) (by omega)
            simp only [canonPair, hc]
        · have hqp : q ≠ p := Ne.symm hpq
          cases hp : lookupChild cs p with
          | some cp =>
            cases hq : lookupChild cs q with
            | some cq =>
              have h1 : lookupChild (updateChild cs q (insertParts qs cq)) p = some cp := by
                rw [lookupChild_updateChild_ne hqp, hp]
              have h2 : lookupChild (updateChild cs p (insertParts ps cp)) q = some cq := by
                rw [lookupChild_updateChild_ne (Ne.symm hqp), hq]
              rw [insertParts_cons_some hq, insertParts_cons_some hp,
                insertParts_cons_some h1, insertParts_cons_some h2,
                updateChild_comm hpq]
            | none =>
              have h1 : lookupChild (cs ++ [(q, insertParts qs (.node []))]) p = some cp :=
                lookupChild_append_some hp
              have h2 : lookupChild (updateChild cs p (insertParts ps cp)) q = none := by
                rw [lookupChild_updateChild_ne (Ne.symm hqp), hq]
              rw [insertParts_cons_none hq, insertParts_cons_some hp,
                insertParts_cons_some h1, insertParts_cons_none h2,
                updateChild_append_some hp]
          | none =>
            cases hq : lookupChild cs q with
            | some cq =>
              have h1 : lookupChild (updateChild cs q (insertParts qs cq)) p = none := by
                rw [lookupChild_updateChild_ne hqp, hp]
              have h2 : lookupChild (cs ++ [(p, insertParts ps (.node []))]) q = some cq :=
                lookupChild_append_some hq
              rw [insertParts_cons_some hq, insertParts_cons_none hp,
                insertParts_cons_none h1, insertParts_cons_some h2,
                updateChild_append_some hq]
            | none =>
              have h1 : lookupChild (cs ++ [(q, insertParts qs (.node []))]) p = none := by
                rw [lookupChild_append_none hp]
                simp [lookupChild, hqp]
              have h2 : lookupChild (cs ++ [(p, insertParts ps (.node []))]) q = none := by
                rw [lookupChild_append_none hq]
                simp [lookupChild, hpq]
              rw [insertParts_cons_none hq, insertParts_cons_none hp,
                insertParts_cons_none h1, insertParts_cons_none h2,
                canonTree_node, canonTree_node,
                sortPairs_append_absent h1, sortPairs_append_absent h2,
                sortPairs_append_absent hq, sortPairs_append_absent hp,
                insertSorted_comm (show ((p, insertParts ps (PathTree.node [])).1
                  ≠ (q, insertParts qs (PathTree.node [])).1) from hpq)]

theorem canon_foldl_congr :
    ∀ (l : List String) {t₁ t₂ : PathTree}, canonTree t₁ = canonTree t₂ →
      canonTree (l.foldl (fun t path => insertParts (splitPath path) t) t₁)
        = canonTree (l.foldl (fun t path => insertParts (splitPath path) t) t₂) := by
  intro l
  induction l with
  | nil => intro t₁ t₂ h; simpa using h
  | cons x xs ih =>
    intro t₁ t₂ h
    simp only [List.foldl_cons]
    exact ih (canon_insertParts_congr _ h)

theorem canon_foldl_perm {l₁ l₂ : List String} (hperm : l₁.Perm l₂) :
    ∀ {t₁ t₂ : PathTree}, canonTree t₁ = canonTree t₂ →
      canonTree (l₁.foldl (fun t path => insertParts (splitPath path) t) t₁)
        = canonTree (l₂.foldl (fun t path => insertParts (splitPath path) t) t₂) := by
  induction hperm with
  | nil => intro t₁ t₂ h; simpa using h
  | cons x h ih =>
    intro t₁ t₂ ht
    simp only [List.foldl_cons]
    exact ih (canon_insertParts_congr _ ht)
  | swap x y l =>
    intro t₁ t₂ ht
    simp only [List.foldl_cons]
    apply canon_foldl_congr
    calc canonTree (insertParts (splitPath x) (insertParts (splitPath y) t₁))
        = canonTree (insertParts (splitPath y) (insertParts (splitPath x) t₁)) :=
          canon_insertParts_swap_aux ((splitPath x).length + (splitPath y).length)
            (splitPath x) (splitPath y) t₁ le_rfl
      _ = canonTree (insertParts (splitPath y) (insertParts (splitPath x) t₂)) :=
          canon_insertParts_congr _ (canon_insertParts_congr _ ht)
  | trans h₁ h₂ ih₁ ih₂ =>
    intro t₁ t₂ ht
    exact (ih₁ rfl).trans (ih₂ ht)

/-- C8: `_build_tree` is insertion-order invariant and deduplicating: a
permutation of the path list yields an equal nested mapping (equal
canonical forms — Python dict equality ignores insertion order); inserting
a repeated path is a no-op; `_build_tree [] = {}` and
`_render_tree {} = []`. -/
theorem build_tree_order_invariant :
    (∀ l₁ l₂ : List String, l₁.Perm l₂ →
       canonTree (_build_tree l₁) = canonTree (_build_tree l₂))
    ∧ (∀ (p : String) (l : List String), _build_tree (p :: p :: l) = _build_tree (p :: l))
    ∧ _build_tree [] = PathTree.node []
    ∧ _render_tree (PathTree.node []) "" = ([] : List String) := by
  refine ⟨?_, ?_, rfl, ?_⟩
  · intro l₁ l₂ hperm
    exact canon_foldl_perm hperm rfl
  · intro p l
    simp only [_build_tree, List.foldl_cons]
    rw [insertParts_idem]
  · simp [_render_tree, PathTree.children, sortPairs, renderList]

/-- Witness for C8: a concrete two-element permutation gives equal
trees. -/
theorem build_tree_order_invariant_witness :
    canonTree (_build_tree ["b", "a"]) = canonTree (_build_tree ["a", "b"]) :=
  build_tree_order_invariant.1 ["b", "a"] ["a", "b"] (List.Perm.swap "a" "b" [])



theorem sizeOf_snd_lt {p : String × PathTree} {cs : List (String × PathTree)}
    (h : p ∈ cs) : sizeOf p.2 < sizeOf cs := by
  induction cs with
  | nil => cases h
  | cons x rest ih =>
    rcases List.mem_cons.mp h with rfl | h
    · obtain ⟨a, b⟩ := p
      simp
      omega
    · have := ih h
      simp
      omega

theorem isEmpty_congr_of_length {α β : Type} {l₁ : List α} {l₂ : List β}
    (h : l₁.length = l₂.length) : l₁.isEmpty = l₂.isEmpty := by
  cases l₁ with
  | nil =>
    cases l₂ with
    | nil => rfl
    | cons y ys => simp at h
  | cons x xs =>
    cases l₂ with
    | nil => simp at h
    | cons y ys => rfl

theorem canonSort_isEmpty (l : List (String × PathTree)) :
    (canonList (sortPairs l)).isEmpty = l.isEmpty :=
  isEmpty_congr_of_length (by rw [length_canonList, length_sortPairs])

theorem canonList_isEmpty (l : List (String × PathTree)) :
    (canonList l).isEmpty = l.isEmpty :=
  isEmpty_congr_of_length (length_canonList l)

theorem renderList_nil (pre : String) : renderList [] pre = [] := by
  simp [renderList]

theorem renderList_cons (name : String) (c : PathTree)
    (rest : List (String × PathTree)) (pre : String) :
    renderList ((name, c) :: rest) pre
      = (pre ++ (if rest.isEmpty then "└── " else "├── ") ++ name) ::
          ((if c.children.isEmpty then []
            else renderList (sortPairs c.children)
              (pre ++ (if rest.isEmpty then "    " else "│   "))) ++
           renderList rest pre) := by
  simp [renderList]

theorem specLinesList_nil (pre : String) : specLinesList [] pre = [] := by
  simp [specLinesList]

theorem specLinesList_cons (name : String) (c : PathTree)
    (rest : List (String × PathTree)) (pre : String) :
    specLinesList ((name, c) :: rest) pre
      = (pre ++ (if rest.isEmpty then "└── " else "├── ") ++ name) ::
          ((if c.children.isEmpty then []
            else specLinesList c.children
              (pre ++ (if rest.isEmpty then "    " else "│   "))) ++
           specLinesList rest pre) := by
  simp [specLinesList]

theorem renderList_eq_spec :
    ∀ es : List (String × PathTree),
      (∀ q ∈ es, ∀ pre : String,
        renderList (sortPairs q.2.children) pre
          = specLinesList (canonList (sortPairs q.2.children)) pre) →
      ∀ pre : String, renderList es pre = specLinesList (canonList es) pre := by
  intro es
  induction es with
  | nil =>
    intro _ pre
    simp [renderList_nil, canonList, specLinesList_nil]
  | cons x rest ih =>
    intro hchild pre
    obtain ⟨name, c⟩ := x
    rw [renderList_cons, canonList_cons]
    show _ = specLinesList ((name, canonTree c) :: canonList rest) pre
    rw [specLinesList_cons]
    have hrest : (canonList rest).isEmpty = rest.isEmpty := canonList_isEmpty rest
    have hchildren : (canonTree c).children = canonList (sortPairs c.children) := rfl
    have hcempty : (canonTree c).children.isEmpty = c.children.isEmpty := by
      rw [hchildren]
      exact canonSort_isEmpty c.children
    rw [hrest, hcempty, hchildren]
    have hc := hchild (name, c) (List.mem_cons_self _ _)
    rw [hc (pre ++ (if rest.isEmpty then "    " else "│   "))]
    rw [ih (fun q hq => hchild q (List.mem_cons_of_mem _ hq)) pre]

theorem render_eq_specLines_aux :
    ∀ (n : ℕ) (t : PathTree), sizeOf t ≤ n →
      ∀ pre : String, _render_tree t pre = specLines (canonTree t) pre := by
  intro n
  induction n with
  | zero =>
    intro t h pre
    exfalso
    obtain ⟨cs⟩ := t
    simp at h
  | succ n ih =>
    intro t h pre
    obtain ⟨cs⟩ := t
    show renderList (sortPairs cs) pre = _
    have hspec : specLines (canonTree (.node cs)) pre
        = specLinesList (canonList (sortPairs cs)) pre := rfl
    rw [hspec]
    apply renderList_eq_spec
    intro q hq pre'
    have hmem : q ∈ cs := mem_sortPairs.mp hq
    have hsz : sizeOf q.2 < sizeOf cs := sizeOf_snd_lt hmem
    have hn : sizeOf q.2 ≤ n := by
      have : sizeOf (PathTree.node cs) = 1 + sizeOf cs := by simp
      omega
    exact ih q.2 hn pre'

/-- C7: `_render_tree` renders every tree exactly as the claim describes:
it visits each level in lexicographic ascending key order (the key order
of `sortPairs`, shown sorted), gives the last entry of a level `└── ` and
every other entry `├── `, and extends the prefix of a child level by four
spaces after a last entry and by the continuation glyph plus three spaces
otherwise — formally it coincides with the claim-side renderer
`specLines` applied to the key-sorted canonical form, and on
`{"b": {}, "a": {}}` it yields `["├── a", "└── b"]`. -/
theorem render_tree_spec :
    (∀ (t : PathTree) (pre : String), _render_tree t pre = specLines (canonTree t) pre)
    ∧ (∀ cs : List (String × PathTree), ((sortPairs cs).map Prod.fst).Pairwise (· ≤ ·))
    ∧ _render_tree (.node [("b", .node []), ("a", .node [])]) "" = ["├── a", "└── b"] := by
  refine ⟨?_, pairwise_keys_sortPairs, ?_⟩
  · intro t pre
    exact render_eq_specLines_aux (sizeOf t) t le_rfl pre
  · have hba : ¬ ("b" : String) ≤ "a" :=
      not_le.mpr (by rw [String.lt_iff_toList_lt]; decide)
    show renderList (sortPairs (PathTree.children (.node [("b", .node []), ("a", .node [])]))) "" = _
    simp only [PathTree.children, sortPairs, insertSorted, if_neg hba]
    rw [renderList_cons, renderList_cons, renderList_nil]
    simp [PathTree.children]

theorem length_insertStr (x : String) (l : List String) :
    (insertStr x l).length = l.length + 1 := by
  induction l with
  | nil => simp [insertStr]
  | cons y rest ih =>
    by_cases h : x ≤ y
    · simp [insertStr, h]
    · simp [insertStr, h, ih]

theorem length_sortStrings (l : List String) :
    (sortStrings l).length = l.length := by
  induction l with
  | nil => simp [sortStrings]
  | cons x rest ih => simp [sortStrings, length_insertStr, ih]

/-- C9: `get_project_structure` returns the literal sentinel
`"(no files indexed)"` on an empty store, and otherwise the
newline-joined rendering of the path tree built from the distinct stored
filenames. -/
theorem get_project_structure_spec :
    (∀ (E : Type) (store : List (Row E)), store = [] →
       get_project_structure store = "(no files indexed)")
    ∧ (∀ (E : Type) (store : List (Row E)), store ≠ [] →
       get_project_structure store
         = String.intercalate "\n"
             (_render_tree (_build_tree (distinctFilenames store)) "")) := by
  constructor
  · intro E store h
    subst h
    simp [get_project_structure, distinctFilenames, sortStrings]
  · intro E store h
    have h1 : (store.map Row.filename).dedup ≠ [] := by
      intro hc
      rw [List.dedup_eq_nil] at hc
      exact h (List.map_eq_nil_iff.mp hc)
    have h2 : distinctFilenames store ≠ [] := by
      unfold distinctFilenames
      intro hc
      apply h1
      have hlen := congrArg List.length hc
      rw [length_sortStrings] at hlen
      exact List.length_eq_zero.mp hlen
    unfold get_project_structure
    rw [if_neg h2]

/-- Witness for C9: the empty store returns the sentinel. -/
theorem get_project_structure_spec_witness :
    get_project_structure ([] : List (Row Unit)) = "(no files indexed)" :=
  get_project_structure_spec.1 Unit [] rfl


end CocoMCP
